import Mathlib

/-!
Verification of the pinin-rs matching engine against its specification.

The Rust sources are shallowly embedded:

* Strings are modelled as `List Char`, one entry per extended grapheme
  cluster.  Every string handled by the matcher (pinyin syllables,
  keystroke spellings, queries, indexed names) consists of single-code-point
  clusters, so the `chars()` counts and the grapheme counts used by the code
  coincide on the modelled inputs, exactly as the code assumes.
* `IndexSet` wraps the `i32` bit set.  All values reachable through the
  matching operations are non-negative, so the value is carried as a `Nat`;
  the `-1` "null" sentinel of `IndexSetStorage` is modelled by `Option`
  (`none` = null), faithful because stored entries are `value + 1 ≥ 1`.
* Stateful pieces (the accelerator cache) are passed explicitly; fallible
  indexing is modelled with `Option`/defaults at points the Rust code
  guards (comments note where Rust would panic instead).
* Recursive routines whose Rust termination argument is "the source cursor
  advances" are written with an explicit fuel argument instantiated with the
  remaining source length; an unfolding lemma recovers the literal
  recurrence of the source.
-/

/-- Strings as their grapheme sequences. -/
abbrev Str := List Char

/-- `compressed.rs`: `IndexSet` — the low bits of the `i32` are the members. -/
structure IndexSet where
  value : Nat
  deriving DecidableEq, Repr

namespace IndexSet

/-- `IndexSet::none()` (also `IndexSet::default()`): value `0x0`. -/
def nought : IndexSet := ⟨0⟩

/-- `IndexSet::zero()`: value `0x1`. -/
def zero : IndexSet := ⟨1⟩

/-- `IndexSet::one()`: value `0x2`. -/
def one : IndexSet := ⟨2⟩

/-- `IndexSet::set`: `self.value |= 0x1 << index`. -/
def set (s : IndexSet) (index : Nat) : IndexSet := ⟨s.value ||| (1 <<< index)⟩

/-- `IndexSet::get`: `self.value & (0x1 << index) != 0`. -/
def get (s : IndexSet) (index : Nat) : Bool := s.value &&& (1 <<< index) != 0

/-- The loop body of `IndexSet::for_each`, folding an accumulator through the
visited members: for `i` in `0..7`, if the low bit is set apply the callback,
else if the remaining value is zero stop; then shift. -/
def forEachAux {α : Type} (f : α → Nat → α) : Nat → Nat → Nat → α → α
  | _, _, 0, a => a
  | v, i, n + 1, a =>
    if v % 2 = 1 then forEachAux f (v / 2) (i + 1) n (f a i)
    else if v = 0 then a
    else forEachAux f (v / 2) (i + 1) n a

/-- The loop of `IndexSet::traverse`: for `i` in `0..7`, if the low bit is set
and the predicate fails return `false`; if the remaining value is zero return
`true`; shift and continue; after the loop return `true`.  (Note: this is the
code as written — it rejects at the first failing member and accepts the
empty set, the converse of the documented "stop with true at the first
success".) -/
def traverseAux (p : Nat → Bool) : Nat → Nat → Nat → Bool
  | _, _, 0 => true
  | v, i, n + 1 =>
    if v % 2 = 1 && !(p i) then false
    else if v = 0 then true
    else traverseAux p (v / 2) (i + 1) n

/-- `IndexSet::traverse`. -/
def traverse (s : IndexSet) (p : Nat → Bool) : Bool := traverseAux p s.value 0 7

/-- `IndexSet::offset`: `self.value <<= i`. -/
def offset (s : IndexSet) (i : Nat) : IndexSet := ⟨s.value <<< i⟩

/-- `IndexSet::merge`: a pure `zero` value is replaced, anything else is
bitwise-or'ed. -/
def merge (s t : IndexSet) : IndexSet :=
  if s.value = 1 then t else ⟨s.value ||| t.value⟩

end IndexSet

/-- `IndexSetStorage::set`'s size computation: `size |= size >> 1; … ;
size |= size >> 16` (five steps, covering 32 bits of a `usize`). -/
def bitFill (n : Nat) : Nat :=
  let s1 := n ||| (n >>> 1)
  let s2 := s1 ||| (s1 >>> 2)
  let s3 := s2 ||| (s2 >>> 4)
  let s4 := s3 ||| (s3 >>> 8)
  s4 ||| (s4 >>> 16)

/-- `Vec::resize(n, x)`: truncate to `n` or extend with `x` up to `n`. -/
def vecResize {α : Type} (l : List α) (n : Nat) (x : α) : List α :=
  l.take n ++ List.replicate (n - l.length) x

/-- An `IndexSetStorage`'s backing vector; entries are `IndexSet.value + 1`,
with `0` encoding absence (the code's `null` sentinel). -/
abbrev Storage := List Nat

/-- `IndexSetStorage::new()`: sixteen zero entries. -/
def storageNew : Storage := List.replicate 16 0

/-- `IndexSetStorage::set`: grow to `bitFill index + 1` when `index` is out of
range, then store `set.value + 1`. -/
def storageSet (st : Storage) (s : IndexSet) (index : Nat) : Storage :=
  if st.length ≤ index then
    (vecResize st (bitFill index + 1) 0).set index (s.value + 1)
  else st.set index (s.value + 1)

/-- `IndexSetStorage::get`: a zero or out-of-range entry is the null sentinel
(modelled as `none`); otherwise the stored value minus one. -/
def storageGet (st : Storage) (index : Nat) : Option IndexSet :=
  match st.get? index with
  | some r => if r ≠ 0 then some ⟨r - 1⟩ else none
  | none => none

/-- `Compressor::end` (the `CharProvider` impl):
`self.chars.get(index) == Some(&'\0')`. -/
def compressorEnd (chars : List Char) (index : Nat) : Bool :=
  chars.get? index == some '\x00'

/-- `Compressor::push`: record the pre-append length, append the characters
and a terminating NUL; returns (new arena, recorded offset). -/
def compressorPush (chars : List Char) (s : Str) : List Char × Nat :=
  (chars ++ s ++ ['\x00'], chars.length)

/-- `elements.rs`: a `Phoneme` — one keystroke spelling or several
alternatives. -/
inductive Phoneme where
  | psingle (s : Str)
  | pmultiple (strings : List Str)
  deriving DecidableEq, Repr

namespace Phoneme

/-- The alternative spellings a phoneme carries. -/
def alternatives : Phoneme → List Str
  | .psingle s => [s]
  | .pmultiple l => l

/-- `Phoneme::is_empty`: a `Single` with an empty string. -/
def isEmpty : Phoneme → Bool
  | .psingle s => s.isEmpty
  | .pmultiple _ => false

/-- Longest common prefix of two grapheme sequences; `Phoneme::strcmp`'s loop
compares `a[i + a_start]` with `b[i]` for `i` below the length minimum and
returns the first mismatch position, or the minimum. -/
def commonLen : Str → Str → Nat
  | x :: xs, y :: ys => if x = y then commonLen xs ys + 1 else 0
  | _, _ => 0

/-- `Phoneme::strcmp a b a_start`. -/
def strcmp (a b : Str) (aStart : Nat) : Nat := commonLen (a.drop aStart) b

/-- The per-alternative body of `Phoneme::match_string`: mark bit `size` iff
the phoneme was fully consumed or (in prefix mode) the source ran out. -/
def procAlt (σ : Str) (k : Nat) (pt : Bool) (ret : IndexSet) (a : Str) : IndexSet :=
  let size := strcmp σ a k
  if (pt && decide (k + size = σ.length)) || decide (size = a.length) then
    ret.set size
  else ret

/-- `Phoneme::match_string source start partial` (`pt` is the partial flag).
A whitespace-only `Single` returns the empty set (`s.trim().is_empty()`). -/
def matchString (p : Phoneme) (σ : Str) (k : Nat) (pt : Bool) : IndexSet :=
  match p with
  | .psingle s =>
    if s.all Char.isWhitespace then IndexSet.nought
    else procAlt σ k pt IndexSet.nought s
  | .pmultiple l => l.foldl (procAlt σ k pt) IndexSet.nought

/-- `Phoneme::match_string_idx`: advance by every member of `idx`, match
there, shift back, and union; an empty phoneme passes `idx` through. -/
def matchStringIdx (p : Phoneme) (s : Str) (idx : IndexSet) (start : Nat)
    (pt : Bool) : IndexSet :=
  if p.isEmpty then idx
  else
    IndexSet.forEachAux
      (fun ret i => ret.merge ((p.matchString s (start + i) pt).offset i))
      idx.value 0 7 IndexSet.nought

/-- `Phoneme::match_sequence`: does some alternative start with `c`?  (The
Rust `unwrap` on an empty alternative would panic; call sites only reach
non-empty first phonemes.) -/
def matchSeq (p : Phoneme) (c : Char) : Bool :=
  match p with
  | .psingle s => s.head? == some c
  | .pmultiple l => l.any (fun s => s.head? == some c)

end Phoneme

/-- `elements.rs`: the fields of `Pinyin` the matcher reads. -/
structure PinyinE where
  id : Nat
  duo : Bool
  sequence : Bool
  phonemes : List Phoneme
  deriving Repr

/-- `Pinyin::match_string s start partial`.  The `duo` branch composes two
(or three) single-keystroke phonemes; the other branch folds each phoneme's
`match_string_idx` through an `active` set, merging non-empty stages into the
accumulator, then applies the initial-letter `sequence` shortcut. -/
def pinyinMatchString (p : PinyinE) (s : Str) (start : Nat) (pt : Bool) : IndexSet :=
  if p.duo then
    match p.phonemes with
    | p0 :: p1 :: rest =>
      let r0 := p0.matchStringIdx s IndexSet.zero start pt
      let r1 := p1.matchStringIdx s r0 start pt
      match rest with
      | [p2] => r1.merge (p2.matchStringIdx s r1 start pt)
      | _ => r1
    | _ => IndexSet.nought
  else
    let step := fun (ar : IndexSet × IndexSet) (ph : Phoneme) =>
      let a := ph.matchStringIdx s ar.1 start pt
      if a.value = 0 then (a, ar.2) else (a, ar.2.merge a)
    let ar := p.phonemes.foldl step (IndexSet.zero, IndexSet.nought)
    let ret := ar.2
    if p.sequence &&
        (p.phonemes.headD (Phoneme.psingle [])).matchSeq (s.getD start ' ') then
      ret.set 1
    else ret

/-- A context: the dictionary's readings for each character
(`PinIn::get_character` yields an empty reading list for unknown chars). -/
abbrev Ctx := Char → List PinyinE

/-- `Character::match_str`: seed with `{1}` on literal equality of the source
char at `start` with this character, then merge every reading's match. -/
def charMatchStr (ctx : Ctx) (c : Char) (s : Str) (start : Nat) (pt : Bool) :
    IndexSet :=
  let init := if s.get? start == some c then IndexSet.one else IndexSet.nought
  (ctx c).foldl (fun r p => r.merge (pinyinMatchString p s start pt)) init

/-- `Accelerator::get`: seed with `{1}` iff the query char at `offset` equals
`ch`, then merge every reading's (memoised) `match_string` on the query.  The
cache is semantically transparent — `get_pinyin` stores exactly
`p.match_string(query, offset, partial)` — so the functional value is used
here; the cache itself is modelled separately for the memoisation claim. -/
def accGet (ctx : Ctx) (pt : Bool) (q : Str) (ch : Char) (offset : Nat) :
    IndexSet :=
  let init := if q.get? offset == some ch then IndexSet.one else IndexSet.nought
  (ctx ch).foldl (fun r p => r.merge (pinyinMatchString p q offset pt)) init

/-- `Accelerator::check` with fuel; the only recursive call is at source
position `start + 1` under the guard `¬ provider.end(start + 1)`, so fuel
`σ.length - start` always suffices (see `accCheckF_fuel_irrel`).  Branches in
source order: query exhausted; source exhausted; last source char; traverse
the per-char `IndexSet`. -/
def accCheckF (ctx : Ctx) (pt : Bool) (q σ : Str) (offset start fuel : Nat) :
    Bool :=
  if offset = q.length then pt || decide (σ.length ≤ start)
  else if σ.length ≤ start then false
  else if σ.length ≤ start + 1 then
    (accGet ctx pt q (σ.getD start ' ') offset).get (q.length - offset)
  else
    match fuel with
    | 0 => false
    | fuel + 1 =>
      (accGet ctx pt q (σ.getD start ' ') offset).traverse
        (fun i => accCheckF ctx pt q σ (offset + i) (start + 1) fuel)

/-- `Accelerator::check` over a `StringProvider` for `σ` (`end i ↔ i ≥ |σ|`,
`provider[start] = σ[start]`). -/
def accCheck (ctx : Ctx) (pt : Bool) (q σ : Str) (offset start : Nat) : Bool :=
  accCheckF ctx pt q σ offset start (σ.length - start)

/-- The loop of `Accelerator::contains`: scan `i` upward from `start` until
the provider ends, succeeding when some `check(offset, i)` does. -/
def accContainsF (ctx : Ctx) (q σ : Str) (offset i fuel : Nat) : Bool :=
  match fuel with
  | 0 => false
  | fuel + 1 =>
    if σ.length ≤ i then false
    else if accCheck ctx true q σ offset i then true
    else accContainsF ctx q σ offset (i + 1) fuel

/-- `Accelerator::contains` (partial flag set to true) over a
`StringProvider` for `σ`. -/
def accContains (ctx : Ctx) (q σ : Str) (offset start : Nat) : Bool :=
  accContainsF ctx q σ offset start (σ.length + 1 - start)

/-- `PinIn::check s1 start1 s2 start2 partial` with fuel (the non-accelerated
matcher; `s1` is the source, `s2` the query).  An out-of-range `start1` is the
code's `nth(start1).unwrap()` panic; call sites keep `start1 < |s1|`. -/
def pininCheckF (ctx : Ctx) (s1 s2 : Str) (pt : Bool) (start1 start2 fuel : Nat) :
    Bool :=
  if start2 = s2.length then pt || decide (start1 = s1.length)
  else
    match s1.get? start1 with
    | none => false
    | some c =>
      if start1 = s1.length - 1 then
        (charMatchStr ctx c s2 start2 pt).get (s2.length - start2)
      else
        match fuel with
        | 0 => false
        | fuel + 1 =>
          (charMatchStr ctx c s2 start2 pt).traverse
            (fun i => pininCheckF ctx s1 s2 pt (start1 + 1) (start2 + i) fuel)

/-- `PinIn::check`. -/
def pininCheck (ctx : Ctx) (s1 s2 : Str) (pt : Bool) (start1 start2 : Nat) : Bool :=
  pininCheckF ctx s1 s2 pt start1 start2 (s1.length - start1)

/-- `str::trim().is_empty()` on the modelled (ASCII) alphabet. -/
def trimEmptyStr (s : Str) : Bool := s.all Char.isWhitespace

/-- `str::contains` — some suffix has the needle as a prefix. -/
def containsSub (h n : Str) : Bool :=
  (List.range (h.length + 1)).any (fun i => n.isPrefixOf (h.drop i))

/-- `PinIn::contains` with `accelerate = false`: substring test for
whitespace-only sources, otherwise `check` at every source position. -/
def pininContainsNA (ctx : Ctx) (s1 s2 : Str) : Bool :=
  if trimEmptyStr s1 then containsSub s1 s2
  else (List.range s1.length).any (fun i => pininCheck ctx s1 s2 true i 0)

/-- `PinIn::begins` with `accelerate = false`: `starts_with` for
whitespace-only sources, otherwise `check(s1, 0, s2, 0, true)`. -/
def pininBeginsNA (ctx : Ctx) (s1 s2 : Str) : Bool :=
  if trimEmptyStr s1 then s2.isPrefixOf s1
  else pininCheck ctx s1 s2 true 0 0

/-- `PinIn::matches` with `accelerate = false`: equality for whitespace-only
sources, otherwise — as the code is written — `check(s1, 0, s2, 0, true)`,
i.e. the same call `begins` makes (partial stays `true`). -/
def pininMatchesNA (ctx : Ctx) (s1 s2 : Str) : Bool :=
  if trimEmptyStr s1 then s1 == s2
  else pininCheck ctx s1 s2 true 0 0

/-- `PinIn::begins` with `accelerate = true`: install `StringProvider(s1)`,
`search(s2)`, then `Accelerator::begins(0, 0)` — `partial := true`,
`check(0, 0)`. -/
def pininBeginsAcc (ctx : Ctx) (s1 s2 : Str) : Bool :=
  accCheck ctx true s2 s1 0 0

/-- `PinIn::matches` with `accelerate = true`: the code installs the provider
and query and then calls `a.begins(self, 0, 0)` — not `a.matches` — so the
partial flag is `true` here as well. -/
def pininMatchesAcc (ctx : Ctx) (s1 s2 : Str) : Bool :=
  accCheck ctx true s2 s1 0 0

/-- `PinIn::contains` with `accelerate = true`. -/
def pininContainsAcc (ctx : Ctx) (s1 s2 : Str) : Bool :=
  accContains ctx s2 s1 0 0

/-- `PinIn::matches`, both accelerator modes. -/
def pininMatchesGen (ctx : Ctx) (acc : Bool) (s1 s2 : Str) : Bool :=
  if acc then pininMatchesAcc ctx s1 s2 else pininMatchesNA ctx s1 s2

/-- `PinIn::begins`, both accelerator modes. -/
def pininBeginsGen (ctx : Ctx) (acc : Bool) (s1 s2 : Str) : Bool :=
  if acc then pininBeginsAcc ctx s1 s2 else pininBeginsNA ctx s1 s2

/-- The accelerator's cache: one `IndexSetStorage` per query offset. -/
abbrev AccCache := List Storage

/-- `Vec::resize_with(n, IndexSetStorage::new)` — note this truncates when
`n` is below the current length. -/
def cacheResizeWith (c : AccCache) (n : Nat) : AccCache :=
  c.take n ++ List.replicate (n - c.length) storageNew

/-- `Accelerator::get_pinyin` as a cache transformer; the returned flag
records whether `p.match_string` was invoked (a cache miss). -/
def getPinyin (q : Str) (pt : Bool) (c : AccCache) (p : PinyinE) (offset : Nat) :
    IndexSet × AccCache × Bool :=
  let c := cacheResizeWith c (offset + 1)
  let data := c.getD offset []
  match storageGet data p.id with
  | some ret => (ret, c, false)
  | none =>
    let s := pinyinMatchString p q offset pt
    (s, c.set offset (storageSet data s p.id), true)

/-- `searcher.rs`: `BTREE_THRESHOLD`. -/
def BTREE_THRESHOLD : Nat := 256

/-- What `NDense::put` returns: either the same dense bucket with the pair
appended, or a promotion — a fresh `NSlice(pattern, pattern + L)` through
which every stored pair and then the new pair are reinserted (the recorded
span and reinsertion sequence). -/
inductive DensePutResult where
  | promoted (sliceStart sliceEnd : Nat) (reinserted : List (Nat × Nat))
  | dense (data : List Nat)
  deriving DecidableEq, Repr

/-- The interleaved `(name_offset, id)` pairs of an `NDense` data vector. -/
def densePairs (data : List Nat) : List (Nat × Nat) :=
  (List.range (data.length / 2)).map (fun j => (data.getD (2 * j) 0, data.getD (2 * j + 1) 0))

/-- One probe of `NDense::match_tree`'s inner loop: does some later entry
mismatch entry 0 at offset `i`, or has entry 0 reached its NUL? -/
def matchTreeStop (chars : List Char) (data : List Nat) (i : Nat) : Bool :=
  let a := chars.getD (data.getD 0 0 + i) '\x00'
  ((List.range (data.length / 2)).drop 1).any (fun j =>
    decide (a ≠ chars.getD (data.getD (2 * j) 0 + i) '\x00') || decide (a = '\x00'))

/-- `NDense::match_tree`'s outer loop with fuel: advance `i` until a probe
stops.  Every stored name is NUL-terminated inside the arena, so fuel
`chars.length + 1` suffices whenever at least two pairs are stored (with a
single pair the Rust loop never exits — unreachable, promotion needs ≥ 128
pairs). -/
def matchTreeAux (chars : List Char) (data : List Nat) : Nat → Nat → Nat
  | _, 0 => 0
  | i, fuel + 1 => if matchTreeStop chars data i then i else matchTreeAux chars data (i + 1) fuel

/-- `NDense::match_tree`. -/
def matchTree (chars : List Char) (data : List Nat) : Nat :=
  matchTreeAux chars data 0 (chars.length + 1)

/-- `NDense::put`: at or above `BTREE_THRESHOLD` stored values, promote to an
`NSlice` spanning the common prefix of entry 0 and reinsert everything plus
the new pair; below it, append `(name, id)` and keep the bucket. -/
def ndensePut (chars : List Char) (data : List Nat) (name id : Nat) :
    DensePutResult :=
  if BTREE_THRESHOLD ≤ data.length then
    let pattern := data.getD 0 0
    .promoted pattern (pattern + matchTree chars data) (densePairs data ++ [(name, id)])
  else .dense (data ++ [name, id])

/-- Is a `DensePutResult` a promotion? -/
def DensePutResult.isPromoted : DensePutResult → Bool
  | .promoted _ _ _ => true
  | .dense _ => false

/-! ### Bit-level lemmas for `IndexSet` -/

theorem IndexSet.get_eq_testBit (s : IndexSet) (i : Nat) :
    s.get i = s.value.testBit i := by
  have h := Nat.and_two_pow s.value i
  rw [IndexSet.get, Nat.shiftLeft_eq, Nat.one_mul, h]
  cases hb : s.value.testBit i <;>
    simp [hb, (Nat.two_pow_pos i).ne]

theorem IndexSet.get_set (s : IndexSet) (i j : Nat) :
    (s.set i).get j = (s.get j || decide (i = j)) := by
  simp only [IndexSet.get_eq_testBit, IndexSet.set, Nat.testBit_lor]
  rw [Nat.shiftLeft_eq, Nat.one_mul, Nat.testBit_two_pow]

theorem IndexSet.get_nought (j : Nat) : IndexSet.nought.get j = false := by
  simp [IndexSet.get_eq_testBit, IndexSet.nought]

/-! ### Characterisation of `Phoneme::match_string` -/

theorem Phoneme.commonLen_le_right (a b : Str) : Phoneme.commonLen a b ≤ b.length := by
  induction a generalizing b with
  | nil => cases b <;> simp [Phoneme.commonLen]
  | cons x xs ih =>
    cases b with
    | nil => simp [Phoneme.commonLen]
    | cons y ys =>
      by_cases h : x = y <;> simp [Phoneme.commonLen, h]
      exact ih ys

theorem Phoneme.strcmp_le_right (σ a : Str) (k : Nat) :
    Phoneme.strcmp σ a k ≤ a.length := Phoneme.commonLen_le_right _ _

/-- The condition under which `procAlt` marks a bit. -/
def Phoneme.altCond (σ : Str) (k : Nat) (pt : Bool) (a : Str) : Prop :=
  (pt = true ∧ k + Phoneme.strcmp σ a k = σ.length) ∨ Phoneme.strcmp σ a k = a.length

instance (σ : Str) (k : Nat) (pt : Bool) (a : Str) :
    Decidable (Phoneme.altCond σ k pt a) := by
  unfold Phoneme.altCond; infer_instance

theorem Phoneme.get_procAlt (σ : Str) (k : Nat) (pt : Bool) (ret : IndexSet)
    (a : Str) (j : Nat) :
    (Phoneme.procAlt σ k pt ret a).get j = true ↔
      (ret.get j = true ∨ (Phoneme.altCond σ k pt a ∧ Phoneme.strcmp σ a k = j)) := by
  unfold Phoneme.procAlt Phoneme.altCond
  by_cases h : (pt && decide (k + Phoneme.strcmp σ a k = σ.length)) ||
      decide (Phoneme.strcmp σ a k = a.length)
  · simp only [h, if_pos, IndexSet.get_set]
    simp only [Bool.or_eq_true, Bool.and_eq_true, decide_eq_true_eq] at h
    constructor
    · intro hg
      rcases Bool.or_eq_true _ _ |>.mp hg with hg | hg
      · exact Or.inl hg
      · exact Or.inr ⟨h, (decide_eq_true_eq).mp hg⟩
    · rintro (hg | ⟨_, hj⟩)
      · simp [hg]
      · simp [hj]
  · simp only [h, if_neg, Bool.not_eq_true]
    simp only [Bool.or_eq_true, Bool.and_eq_true, decide_eq_true_eq] at h
    push_neg at h
    constructor
    · exact Or.inl
    · rintro (hg | ⟨hc, _⟩)
      · exact hg
      · rcases hc with ⟨hpt, hlen⟩ | hful
        · exact absurd hlen (h.1 hpt)
        · exact absurd hful h.2

theorem Phoneme.get_foldl_procAlt (σ : Str) (k : Nat) (pt : Bool)
    (l : List Str) (init : IndexSet) (j : Nat) :
    ((l.foldl (Phoneme.procAlt σ k pt) init).get j = true) ↔
      (init.get j = true ∨
        ∃ a ∈ l, Phoneme.altCond σ k pt a ∧ Phoneme.strcmp σ a k = j) := by
  induction l generalizing init with
  | nil => simp
  | cons a l ih =>
    rw [List.foldl_cons, ih, Phoneme.get_procAlt]
    constructor
    · rintro ((h | h) | ⟨b, hb, h⟩)
      · exact Or.inl h
      · exact Or.inr ⟨a, List.mem_cons_self a l, h⟩
      · exact Or.inr ⟨b, List.mem_cons_of_mem a hb, h⟩
    · rintro (h | ⟨b, hb, h⟩)
      · exact Or.inl (Or.inl h)
      · rcases List.mem_cons.mp hb with rfl | hb
        · exact Or.inl (Or.inr h)
        · exact Or.inr ⟨b, hb, h⟩

/-- A `Single` phoneme whose string trims to nothing (the early-out case of
`Phoneme::match_string`). -/
def Phoneme.wsSingle : Phoneme → Bool
  | .psingle s => s.all Char.isWhitespace
  | .pmultiple _ => false

theorem Phoneme.get_matchString (p : Phoneme) (σ : Str) (k : Nat) (pt : Bool)
    (j : Nat) (hp : p.wsSingle = false) :
    ((p.matchString σ k pt).get j = true) ↔
      ∃ a ∈ p.alternatives, Phoneme.altCond σ k pt a ∧ Phoneme.strcmp σ a k = j := by
  cases p with
  | psingle s =>
    simp only [Phoneme.wsSingle] at hp
    simp only [Phoneme.matchString, hp, Bool.false_eq_true, if_false,
      Phoneme.alternatives]
    rw [Phoneme.get_procAlt]
    simp [IndexSet.get_nought]
  | pmultiple l =>
    simp only [Phoneme.matchString, Phoneme.alternatives]
    rw [Phoneme.get_foldl_procAlt]
    simp [IndexSet.get_nought]

/-! ### Accelerator lemmas -/

theorem IndexSet.traverse_congr (s : IndexSet) {p q : Nat → Bool}
    (h : ∀ i, p i = q i) : s.traverse p = s.traverse q := by
  have : p = q := funext h
  rw [this]

theorem accCheckF_fuel_irrel (ctx : Ctx) (pt : Bool) (q σ : Str) :
    ∀ f1 f2 offset start, σ.length - start ≤ f1 → σ.length - start ≤ f2 →
      accCheckF ctx pt q σ offset start f1 = accCheckF ctx pt q σ offset start f2 := by
  intro f1
  induction f1 with
  | zero =>
    intro f2 offset start h1 _
    rw [accCheckF.eq_def, accCheckF.eq_def]
    have hs : σ.length ≤ start := by omega
    by_cases ho : offset = q.length
    · simp [ho]
    · simp only [ho, if_false, hs, if_pos, le_refl]
  | succ f1 ih =>
    intro f2 offset start h1 h2
    rw [accCheckF.eq_def, accCheckF.eq_def]
    by_cases ho : offset = q.length
    · simp [ho]
    by_cases hs : σ.length ≤ start
    · simp [ho, hs]
    by_cases hs1 : σ.length ≤ start + 1
    · simp [ho, hs, hs1]
    · simp only [ho, if_false, hs, hs1]
      have hrem : 1 ≤ σ.length - (start + 1) := by omega
      obtain ⟨f2', rfl⟩ : ∃ f2', f2 = f2' + 1 := ⟨f2 - 1, by omega⟩
      apply IndexSet.traverse_congr
      intro i
      exact ih f2' (offset + i) (start + 1) (by omega) (by omega)

theorem accCheck_eq (ctx : Ctx) (pt : Bool) (q σ : Str) (offset start : Nat) :
    accCheck ctx pt q σ offset start =
      if offset = q.length then pt || decide (σ.length ≤ start)
      else if σ.length ≤ start then false
      else if σ.length ≤ start + 1 then
        (accGet ctx pt q (σ.getD start ' ') offset).get (q.length - offset)
      else
        (accGet ctx pt q (σ.getD start ' ') offset).traverse
          (fun i => accCheck ctx pt q σ (offset + i) (start + 1)) := by
  unfold accCheck
  rw [accCheckF.eq_def]
  by_cases ho : offset = q.length
  · simp [ho]
  by_cases hs : σ.length ≤ start
  · simp [ho, hs]
  by_cases hs1 : σ.length ≤ start + 1
  · simp [ho, hs, hs1]
  · simp only [ho, if_false, hs, hs1]
    obtain ⟨m, hm⟩ : ∃ m, σ.length - start = m + 1 := ⟨σ.length - start - 1, by omega⟩
    rw [hm]
    apply IndexSet.traverse_congr
    intro i
    exact accCheckF_fuel_irrel ctx pt q σ m (σ.length - (start + 1)) (offset + i)
      (start + 1) (by omega) (by omega)

theorem accCheckF_translate (ctx : Ctx) (pt : Bool) (q σ : Str) (k : Nat) :
    ∀ fuel offset t,
      accCheckF ctx pt q σ offset (k + t) fuel =
        accCheckF ctx pt q (σ.drop k) offset t fuel := by
  intro fuel
  induction fuel with
  | zero =>
    intro offset t
    rw [accCheckF.eq_def, accCheckF.eq_def]
    have hlen : (σ.drop k).length = σ.length - k := List.length_drop k σ
    have h1 : (σ.length ≤ k + t) ↔ ((σ.drop k).length ≤ t) := by rw [hlen]; omega
    have h1' : (σ.length ≤ k + t + 1) ↔ ((σ.drop k).length ≤ t + 1) := by
      rw [hlen]; omega
    have h2 : σ.getD (k + t) ' ' = (σ.drop k).getD t ' ' := by
      simp [List.getD_eq_getElem?_getD, List.getElem?_drop]
    by_cases ho : offset = q.length
    · rw [if_pos ho, if_pos ho]
      congr 1
      exact decide_eq_decide.mpr h1
    rw [if_neg ho, if_neg ho]
    by_cases hs : σ.length ≤ k + t
    · rw [if_pos hs, if_pos (h1.mp hs)]
    rw [if_neg hs, if_neg (fun h => hs (h1.mpr h))]
    by_cases hs1 : σ.length ≤ k + t + 1
    · rw [if_pos hs1, if_pos (h1'.mp hs1), h2]
    · rw [if_neg hs1, if_neg (fun h => hs1 (h1'.mpr h))]
  | succ fuel ih =>
    intro offset t
    rw [accCheckF.eq_def, accCheckF.eq_def]
    have hlen : (σ.drop k).length = σ.length - k := List.length_drop k σ
    have h1 : (σ.length ≤ k + t) ↔ ((σ.drop k).length ≤ t) := by rw [hlen]; omega
    have h1' : (σ.length ≤ k + t + 1) ↔ ((σ.drop k).length ≤ t + 1) := by
      rw [hlen]; omega
    have h2 : σ.getD (k + t) ' ' = (σ.drop k).getD t ' ' := by
      simp [List.getD_eq_getElem?_getD, List.getElem?_drop]
    by_cases ho : offset = q.length
    · rw [if_pos ho, if_pos ho]
      congr 1
      exact decide_eq_decide.mpr h1
    rw [if_neg ho, if_neg ho]
    by_cases hs : σ.length ≤ k + t
    · rw [if_pos hs, if_pos (h1.mp hs)]
    rw [if_neg hs, if_neg (fun h => hs (h1.mpr h))]
    by_cases hs1 : σ.length ≤ k + t + 1
    · rw [if_pos hs1, if_pos (h1'.mp hs1), h2]
    · rw [if_neg hs1, if_neg (fun h => hs1 (h1'.mpr h)), h2]
      apply IndexSet.traverse_congr
      intro i
      exact ih (offset + i) (t + 1)

theorem accCheck_translate (ctx : Ctx) (pt : Bool) (q σ : Str) (k offset t : Nat) :
    accCheck ctx pt q σ offset (k + t) = accCheck ctx pt q (σ.drop k) offset t := by
  unfold accCheck
  have hlen : (σ.drop k).length = σ.length - k := List.length_drop k σ
  have hfuel : σ.length - (k + t) = (σ.drop k).length - t := by rw [hlen]; omega
  rw [hfuel]
  exact accCheckF_translate ctx pt q σ k _ offset t

theorem accContainsF_iff (ctx : Ctx) (q σ : Str) (offset : Nat) :
    ∀ fuel i, σ.length - i ≤ fuel →
      (accContainsF ctx q σ offset i fuel = true ↔
        ∃ j, i ≤ j ∧ j < σ.length ∧ accCheck ctx true q σ offset j = true) := by
  intro fuel
  induction fuel with
  | zero =>
    intro i h
    rw [accContainsF]
    constructor
    · intro hf; exact absurd hf (by simp)
    · rintro ⟨j, hij, hj, _⟩; omega
  | succ fuel ih =>
    intro i h
    rw [accContainsF]
    by_cases hs : σ.length ≤ i
    · rw [if_pos hs]
      constructor
      · intro hf; exact absurd hf (by simp)
      · rintro ⟨j, hij, hj, _⟩; omega
    rw [if_neg hs]
    by_cases hc : accCheck ctx true q σ offset i = true
    · rw [if_pos hc]
      exact ⟨fun _ => ⟨i, le_refl i, by omega, hc⟩, fun _ => rfl⟩
    · rw [if_neg hc]
      rw [ih (i + 1) (by omega)]
      constructor
      · rintro ⟨j, hij, hj, hcj⟩; exact ⟨j, by omega, hj, hcj⟩
      · rintro ⟨j, hij, hj, hcj⟩
        refine ⟨j, ?_, hj, hcj⟩
        rcases Nat.eq_or_lt_of_le hij with rfl | hlt
        · exact absurd hcj hc
        · omega

/-! ### Concrete dictionary fragments used by the claim instances
(readings as produced by `Pinyin::new` under the quanpin keyboard:
`duo = false`, `sequence = true`, identity key map, standard cutter). -/

/-- `昂: ang1` — phonemes `ang`, `1`. -/
def ang1 : PinyinE := ⟨0, false, true, [Phoneme.psingle ['a', 'n', 'g'], Phoneme.psingle ['1']]⟩

/-- A context knowing only `昂`. -/
def ctxAng : Ctx := fun c => if c = '昂' then [ang1] else []

/-- `测: ce4` — phonemes `c`, `e`, `4`. -/
def ce4 : PinyinE := ⟨0, false, true, [Phoneme.psingle ['c'], Phoneme.psingle ['e'], Phoneme.psingle ['4']]⟩

/-- `试: shi4` — phonemes `sh`, `i`, `4`. -/
def shi4 : PinyinE := ⟨1, false, true, [Phoneme.psingle ['s', 'h'], Phoneme.psingle ['i'], Phoneme.psingle ['4']]⟩

/-- `文: wen2` — phonemes `w`, `en`, `2`. -/
def wen2 : PinyinE := ⟨2, false, true, [Phoneme.psingle ['w'], Phoneme.psingle ['e', 'n'], Phoneme.psingle ['2']]⟩

/-- `本: ben3` — phonemes `b`, `en`, `3`. -/
def ben3 : PinyinE := ⟨3, false, true, [Phoneme.psingle ['b'], Phoneme.psingle ['e', 'n'], Phoneme.psingle ['3']]⟩

/-- The dictionary fragment for the test string `测试文本`. -/
def ctxCeshi : Ctx := fun c =>
  if c = '测' then [ce4]
  else if c = '试' then [shi4]
  else if c = '文' then [wen2]
  else if c = '本' then [ben3]
  else []

/-- An empty dictionary: every character falls back to the placeholder with no
readings. -/
def ctxEmpty : Ctx := fun _ => []

/-- `zhuang1` — phonemes `zh`, `uang`, `1` (seven graphemes in total). -/
def zhuang1 : PinyinE :=
  ⟨0, false, true,
    [Phoneme.psingle ['z', 'h'], Phoneme.psingle ['u', 'a', 'n', 'g'], Phoneme.psingle ['1']]⟩

/-! ### Claim C1 -/

/-- Claim C1: `IndexSet::traverse` is claimed to evaluate `p` on the members
in ascending order, stopping with `true` at the first member satisfying `p`
(so it returns `true` iff some member satisfies `p`).  The code instead
returns `false` at the first member that fails `p` and `true` otherwise: on
`{0, 1}` with `p = (· = 0)` a member satisfies `p` yet `traverse` returns
`false`, and on the empty set (no member at all) it returns `true`.
Consequently the accelerated `contains("测试文本", "ce2shi4wb")` — asserted
`false` by the repository's own `quanpin` test — evaluates to `true`. -/
theorem c1_traverse_code_bug :
    IndexSet.traverse ⟨3⟩ (fun i => decide (i = 0)) = false ∧
    IndexSet.get ⟨3⟩ 0 = true ∧ decide ((0 : Nat) = 0) = true ∧
    IndexSet.traverse ⟨0⟩ (fun _ => false) = true ∧
    pininContainsAcc ctxCeshi ['测', '试', '文', '本']
      ['c', 'e', '2', 's', 'h', 'i', '4', 'w', 'b'] = true := by
  decide

/-! ### Claim C2 -/

/-- Claim C2: `PinIn::matches(s1, s2)` is claimed to hold iff the
Accelerator's `check` at `(0, 0)` with the partial flag `false` succeeds.
The code instead calls `Accelerator::begins` (partial flag `true`) — and its
non-accelerated branch likewise calls `check(s1, 0, s2, 0, true)` — so on
`s1 = "昂"` (reading `ang1`), `s2 = "an"` both forms of `matches` return
`true` while `check` with partial `false` returns `false`.
(`Accelerator::matches`, which does set the flag to `false`, exists but is
never called by `PinIn::matches`.) -/
theorem c2_matches_code_bug :
    pininMatchesAcc ctxAng ['昂'] ['a', 'n'] = true ∧
    pininMatchesNA ctxAng ['昂'] ['a', 'n'] = true ∧
    accCheck ctxAng false ['a', 'n'] ['昂'] 0 0 = false := by
  decide

/-! ### Claim C5 -/

/-- Claim C5 (amended: restricted to the accelerated path): the loop of
`Accelerator::contains(offset, start)` succeeds iff `check(offset, i)` with
the partial flag `true` succeeds for some `i ≥ start` before the provider's
end, and `PinIn::contains(σ, q)` with `accelerate = true` succeeds iff
`PinIn::begins(σ[i..], q)` (accelerated) succeeds for some suffix of `σ`. -/
theorem c5_contains_amended (ctx : Ctx) (q σ : Str) (offset start : Nat) :
    (accContains ctx q σ offset start = true ↔
      ∃ i, start ≤ i ∧ i < σ.length ∧ accCheck ctx true q σ offset i = true) ∧
    (pininContainsAcc ctx σ q = true ↔
      ∃ i, i < σ.length ∧ pininBeginsAcc ctx (σ.drop i) q = true) := by
  constructor
  · exact accContainsF_iff ctx q σ offset _ start (by omega)
  · unfold pininContainsAcc accContains
    rw [accContainsF_iff ctx q σ 0 _ 0 (by omega)]
    constructor
    · rintro ⟨j, _, hj, hc⟩
      refine ⟨j, hj, ?_⟩
      unfold pininBeginsAcc
      rw [← accCheck_translate ctx true q σ j 0 0]
      exact hc
    · rintro ⟨j, hj, hb⟩
      refine ⟨j, by omega, hj, ?_⟩
      unfold pininBeginsAcc at hb
      rw [← accCheck_translate ctx true q σ j 0 0] at hb
      exact hb

/-- Claim C5, counterexample to the unrestricted statement: with
`accelerate = false` and an empty dictionary, `contains("a  ", "a x")` is
`true` (the inverted `traverse` accepts the empty continuation set at the
interior blank) yet `begins` fails on every suffix — the whitespace-only
suffixes take the literal `starts_with` branch.  `drop i` for `i ≥ 3` is the
empty suffix, so the four indices cover every suffix of the source. -/
theorem c5_na_counterexample :
    pininContainsNA ctxEmpty ['a', ' ', ' '] ['a', ' ', 'x'] = true ∧
    ((List.range 4).all
      (fun i => !(pininBeginsNA ctxEmpty (List.drop i ['a', ' ', ' ']) ['a', ' ', 'x']))) = true := by
  decide

/-! ### Claim C3 -/

/-- `pinin.rs`: the fuzzy-rule switches. -/
structure FuzzySettings where
  zh2z : Bool
  sh2s : Bool
  ch2c : Bool
  ang2an : Bool
  ing2in : Bool
  eng2en : Bool
  u2v : Bool
  deriving Repr

/-- `FuzzySettings::default()`: everything off. -/
def FuzzySettings.off : FuzzySettings := ⟨false, false, false, false, false, false, false⟩

/-- Set insertion (the `FxHashSet` of `Phoneme::new`; iteration order of the
hash set is irrelevant to the match semantics, so a list with unique members
is used). -/
def insertUniq (l : List Str) (x : Str) : List Str := if x ∈ l then l else l ++ [x]

/-- `Phoneme::new s settings keyboard` (with `keys` the keyboard's key map,
the identity for quanpin): seed with `s`, apply the `c/s/z/v` head rules and
the `ang/eng/ing` ↔ `an/en/in` tail rules, map through `keys`, and pick
`Single` exactly when one alternative remains. -/
def phonemeNew (s : Str) (fz : FuzzySettings) (keys : Str → Str) : Phoneme :=
  let r0 := [s]
  let r1 :=
    match s.head? with
    | some 'c' => if fz.ch2c then insertUniq (insertUniq r0 ['c']) ['c', 'h'] else r0
    | some 's' => if fz.sh2s then insertUniq (insertUniq r0 ['s']) ['s', 'h'] else r0
    | some 'z' => if fz.zh2z then insertUniq (insertUniq r0 ['z']) ['z', 'h'] else r0
    | some 'v' => if fz.u2v then insertUniq r0 ('u' :: s.tail) else r0
    | _ => r0
  let r2 :=
    if (fz.ang2an && decide (List.isSuffixOf ['a', 'n', 'g'] s))
        || (fz.eng2en && decide (List.isSuffixOf ['e', 'n', 'g'] s))
        || (fz.ing2in && decide (List.isSuffixOf ['i', 'n', 'g'] s)) then
      insertUniq r1 (s.take (s.length - 1))
    else r1
  let r3 :=
    if (fz.ang2an && decide (List.isSuffixOf ['a', 'n'] s))
        || (fz.eng2en && decide (List.isSuffixOf ['e', 'n'] s))
        || (fz.ing2in && decide (List.isSuffixOf ['i', 'n'] s)) then
      insertUniq r2 (s ++ ['g'])
    else r2
  if r3.length = 1 then Phoneme.psingle (keys s) else Phoneme.pmultiple (r3.map keys)

/-- Claim C3 (amended: excluding phonemes whose `Single` string trims to
nothing, which short-circuit to the empty set): for every other phoneme,
`match_string(σ, k, true)` contains `j` iff some alternative `a` has longest
common grapheme prefix of length `j` with `σ[k..]` and either the phoneme is
fully consumed (`j = |a|`) or the source is exhausted (`k + j = |σ|`).  The
bound `k ≤ |σ|` keeps the call inside the domain where the Rust `strcmp`
does not underflow `a.graphemes.len() - a_start`. -/
theorem c3_match_string_amended (p : Phoneme) (σ : Str) (k j : Nat)
    (_hk : k ≤ σ.length) (hp : p.wsSingle = false) :
    ((p.matchString σ k true).get j = true ↔
      ∃ a ∈ p.alternatives, Phoneme.strcmp σ a k = j ∧
        (j = a.length ∨ k + j = σ.length)) := by
  rw [Phoneme.get_matchString p σ k true j hp]
  constructor
  · rintro ⟨a, ha, hcond, hj⟩
    refine ⟨a, ha, hj, ?_⟩
    rcases hcond with ⟨_, hlen⟩ | hful
    · exact Or.inr (hj ▸ hlen)
    · exact Or.inl (hj ▸ hful)
  · rintro ⟨a, ha, hj, hor⟩
    refine ⟨a, ha, ?_, hj⟩
    rcases hor with hful | hlen
    · exact Or.inr (hj.symm ▸ hful)
    · exact Or.inl ⟨rfl, hj.symm ▸ hlen⟩

/-- Claim C3, counterexample to the unrestricted statement: `Phoneme::new`
on the empty string (reachable, e.g. the Daqian key map sends `"0"` and `""`
to `""`) yields `Single("")`; its sole alternative `""` has common prefix
length `0 = |""|` with any source, so the claim demands member `0`, but
`match_string` returns the empty set through the `trim().is_empty()`
early-out. -/
theorem c3_counterexample :
    phonemeNew [] FuzzySettings.off (fun s => s) = Phoneme.psingle [] ∧
    (Phoneme.matchString (Phoneme.psingle []) ['a'] 0 true).get 0 = false ∧
    Phoneme.strcmp ['a'] [] 0 = 0 ∧ ([] : Str).length = 0 := by
  decide

/-- Claim C3, witness: the amended equivalence applied to the one-letter
phoneme `a` against source `ab` at `k = 0`, producing member `1`. -/
theorem c3_witness :
    (Phoneme.matchString (Phoneme.psingle ['a']) ['a', 'b'] 0 true).get 1 = true :=
  (c3_match_string_amended (Phoneme.psingle ['a']) ['a', 'b'] 0 1 (by decide)
    (by decide)).mpr ⟨['a'], by decide, by decide, Or.inl (by decide)⟩

/-! ### Claim C4 -/

/-- The longest alternative of a phoneme, in graphemes. -/
def Phoneme.maxAltLen (p : Phoneme) : Nat :=
  (p.alternatives.map List.length).foldr max 0

theorem le_foldr_max (l : List Nat) (x : Nat) (hx : x ∈ l) : x ≤ l.foldr max 0 := by
  induction l with
  | nil => cases hx
  | cons y ys ih =>
    rcases List.mem_cons.mp hx with rfl | hx
    · exact le_max_left _ _
    · exact (ih hx).trans (le_max_right _ _)

/-- Claim C4 (amended): a member of `Phoneme::match_string`'s result never
exceeds the grapheme length of the longest alternative — but that, not `6`,
is the true bound, and the composed operations shift further: see the
counterexample, where `Pinyin::match_string` on the seven-grapheme syllable
`zhuang1` produces member `7`.  (`for_each`/`traverse` only ever visit
members `0..6`, but `get` sees the higher bits.) -/
theorem c4_members_amended (p : Phoneme) (σ : Str) (k : Nat) (pt : Bool) (j : Nat)
    (h : (p.matchString σ k pt).get j = true) : j ≤ p.maxAltLen := by
  by_cases hp : p.wsSingle = true
  · cases p with
    | psingle s =>
      rw [Phoneme.wsSingle] at hp
      rw [Phoneme.matchString, if_pos hp, IndexSet.get_nought] at h
      exact absurd h (by simp)
    | pmultiple l => simp [Phoneme.wsSingle] at hp
  · have hp' : p.wsSingle = false := by simpa using hp
    obtain ⟨a, ha, _, hj⟩ := (Phoneme.get_matchString p σ k pt j hp').mp h
    have h1 : j ≤ a.length := hj ▸ Phoneme.strcmp_le_right σ a k
    exact h1.trans (le_foldr_max _ _ (List.mem_map_of_mem List.length ha))

/-- Claim C4, counterexample: matching the full syllable `zhuang1` against
the seven-grapheme query `zhuang1` marks member `7` (`zh` consumes 2, `uang`
4 more, the tone 1 more), so the produced `IndexSet` is not confined to
`{0..6}`. -/
theorem c4_counterexample :
    (pinyinMatchString zhuang1 ['z', 'h', 'u', 'a', 'n', 'g', '1'] 0 false).get 7 = true ∧
    ¬ (7 ≤ 6) := by
  decide

/-- Claim C4, witness: the amended bound applied to the phoneme `ab` matching
source `ab` at `k = 0` with member `2`. -/
theorem c4_witness : 2 ≤ (Phoneme.psingle ['a', 'b']).maxAltLen :=
  c4_members_amended (Phoneme.psingle ['a', 'b']) ['a', 'b'] 0 true 2 (by decide)

/-! ### Claim C6 -/

/-- Claim C6 (amended: the threshold counts the interleaved stored values, so
promotion happens at 256 values = 128 pairs, not 256 pairs): `NDense::put`
returns the `NSlice` replacement exactly when the data vector already holds
at least `BTREE_THRESHOLD = 256` values, and otherwise appends
`(name, id)` and keeps the bucket. -/
theorem c6_ndense_put_amended (chars : List Char) (data : List Nat) (name idv : Nat) :
    ((ndensePut chars data name idv).isPromoted = true ↔
      BTREE_THRESHOLD ≤ data.length) ∧
    ((ndensePut chars data name idv).isPromoted = false →
      ndensePut chars data name idv = .dense (data ++ [name, idv])) := by
  unfold ndensePut
  by_cases h : BTREE_THRESHOLD ≤ data.length <;>
    simp [h, DensePutResult.isPromoted]

set_option maxRecDepth 8000 in
/-- Claim C6, counterexample: a bucket holding 128 pairs (256 interleaved
values — fewer than the claimed 256 pairs) is already promoted by `put`. -/
theorem c6_counterexample :
    (ndensePut ['\x00'] (List.replicate 256 0) 3 7).isPromoted = true ∧
    (densePairs (List.replicate 256 0)).length = 128 ∧ ¬ (256 ≤ 128) := by
  decide

/-- Claim C6, witness: a two-value bucket appends and stays dense. -/
theorem c6_witness :
    ndensePut ['\x00'] [0, 0] 3 7 = DensePutResult.dense ([0, 0] ++ [3, 7]) :=
  (c6_ndense_put_amended ['\x00'] [0, 0] 3 7).2 (by decide)

/-! ### Claim C7 -/

theorem testBit_lor_shiftRight (x d j : Nat) :
    (x ||| x >>> d).testBit j = (x.testBit j || x.testBit (j + d)) := by
  rw [Nat.testBit_lor, Nat.testBit_shiftRight, Nat.add_comm d j]

theorem spread_step {x n m : Nat}
    (h : ∀ j, x.testBit j = true ↔ ∃ t, t ≤ m ∧ n.testBit (j + t) = true) :
    ∀ j, (x ||| x >>> (m + 1)).testBit j = true ↔
      ∃ t, t ≤ 2 * m + 1 ∧ n.testBit (j + t) = true := by
  intro j
  rw [testBit_lor_shiftRight, Bool.or_eq_true, h j, h (j + (m + 1))]
  constructor
  · rintro (⟨t, ht, hb⟩ | ⟨t, ht, hb⟩)
    · exact ⟨t, by omega, hb⟩
    · refine ⟨m + 1 + t, by omega, ?_⟩
      rw [show j + (m + 1 + t) = j + (m + 1) + t by omega]
      exact hb
  · rintro ⟨t, ht, hb⟩
    by_cases htm : t ≤ m
    · exact Or.inl ⟨t, htm, hb⟩
    · refine Or.inr ⟨t - (m + 1), by omega, ?_⟩
      rw [show j + (m + 1) + (t - (m + 1)) = j + t by omega]
      exact hb

/-- Bits of the 32-bit smear: bit `j` of `bitFill n` is set iff `n` has a set
bit within the next 32 positions at or above `j`. -/
theorem bitFill_testBit (n : Nat) :
    ∀ j, (bitFill n).testBit j = true ↔ ∃ t, t ≤ 31 ∧ n.testBit (j + t) = true := by
  have h0 : ∀ j, n.testBit j = true ↔ ∃ t, t ≤ 0 ∧ n.testBit (j + t) = true := by
    intro j
    constructor
    · intro h; exact ⟨0, le_refl 0, by simpa using h⟩
    · rintro ⟨t, ht, hb⟩
      have : t = 0 := by omega
      subst this
      simpa using hb
  have h1 := spread_step h0
  have h2 := spread_step h1
  have h3 := spread_step h2
  have h4 := spread_step h3
  have h5 := spread_step h4
  intro j
  have := h5 j
  norm_num at this ⊢
  simpa [bitFill] using this

theorem testBit_log2_self (n : Nat) (h : 1 ≤ n) : n.testBit n.log2 = true := by
  have h1 : 2 ^ n.log2 ≤ n := Nat.log2_self_le (by omega)
  have h2 : n < 2 ^ (n.log2 + 1) := Nat.lt_log2_self
  have hpow : 0 < 2 ^ n.log2 := Nat.two_pow_pos _
  rw [Nat.testBit_to_div_mod]
  have hd1 : 1 ≤ n / 2 ^ n.log2 := (Nat.one_le_div_iff hpow).mpr h1
  have hd2 : n / 2 ^ n.log2 < 2 := by
    rw [Nat.div_lt_iff_lt_mul hpow]
    rw [pow_succ] at h2
    omega
  have hd : n / 2 ^ n.log2 = 1 := by omega
  rw [hd]
  decide

/-- For `1 ≤ n < 2^32` the five-step smear fills every bit below the leading
one: `bitFill n = 2^(log2 n + 1) - 1`. -/
theorem bitFill_eq_two_pow_sub_one (n : Nat) (h1 : 1 ≤ n) (h32 : n < 2 ^ 32) :
    bitFill n = 2 ^ (n.log2 + 1) - 1 := by
  have hlg : n.log2 < 32 := (Nat.log2_lt (by omega)).mpr h32
  apply Nat.eq_of_testBit_eq
  intro j
  rw [Nat.testBit_two_pow_sub_one]
  by_cases hj : j < n.log2 + 1
  · rw [decide_eq_true hj]
    refine (bitFill_testBit n j).mpr ⟨n.log2 - j, by omega, ?_⟩
    rw [show j + (n.log2 - j) = n.log2 by omega]
    exact testBit_log2_self n h1
  · rw [decide_eq_false hj]
    cases hb : (bitFill n).testBit j with
    | false => rfl
    | true =>
      obtain ⟨t, _, hbt⟩ := (bitFill_testBit n j).mp hb
      have hlt : n < 2 ^ (j + t) := by
        calc n < 2 ^ (n.log2 + 1) := Nat.lt_log2_self
        _ ≤ 2 ^ (j + t) := Nat.pow_le_pow_right (by omega) (by omega)
      rw [Nat.testBit_eq_false_of_lt hlt] at hbt
      exact absurd hbt (by simp)

theorem vecResize_length {α : Type} (l : List α) (n : Nat) (x : α) :
    (vecResize l n x).length = n := by
  simp only [vecResize, List.length_append, List.length_take, List.length_replicate]
  omega

/-- Claim C7 (amended: for `index < 2^32` — the smear only covers 32 bits, so
a 64-bit index at or above `2^32` is resized to a non-power-of-two, see the
counterexample): when `index` is at or beyond the current length, the table
grows to exactly `2^(log2 index + 1)`, which is the smallest power of two
`≥ index + 1`, and slot `index` holds the `IndexSet`'s value plus one. -/
theorem c7_storage_amended (st : Storage) (s : IndexSet) (index : Nat)
    (h0 : 1 ≤ st.length) (hlen : st.length ≤ index) (h32 : index < 2 ^ 32) :
    (storageSet st s index).length = 2 ^ (Nat.log2 index + 1) ∧
    index + 1 ≤ (storageSet st s index).length ∧
    (∀ m : Nat, index + 1 ≤ 2 ^ m → (storageSet st s index).length ≤ 2 ^ m) ∧
    (storageSet st s index).get? index = some (s.value + 1) := by
  have hidx1 : 1 ≤ index := by omega
  have hfill : bitFill index = 2 ^ (Nat.log2 index + 1) - 1 :=
    bitFill_eq_two_pow_sub_one index hidx1 h32
  have hlt : index < 2 ^ (Nat.log2 index + 1) := Nat.lt_log2_self
  unfold storageSet
  rw [if_pos hlen]
  have hrl : (vecResize st (bitFill index + 1) 0).length = bitFill index + 1 :=
    vecResize_length st (bitFill index + 1) 0
  have hslen :
      ((vecResize st (bitFill index + 1) 0).set index (s.value + 1)).length =
        bitFill index + 1 := by
    rw [List.length_set, hrl]
  refine ⟨?_, ?_, ?_, ?_⟩
  · rw [hslen, hfill]
    have := Nat.one_le_two_pow (n := Nat.log2 index + 1)
    omega
  · rw [hslen, hfill]
    omega
  · intro m hm
    rw [hslen, hfill]
    have hlg : Nat.log2 index < m := (Nat.log2_lt (by omega)).mpr (by omega)
    have : 2 ^ (Nat.log2 index + 1) ≤ 2 ^ m := Nat.pow_le_pow_right (by omega) (by omega)
    omega
  · exact List.get?_set_eq_of_lt (s.value + 1) (by rw [hrl, hfill]; omega)

/-- Claim C7, witness: growing a fresh sixteen-slot table at `index = 20`
yields length `32 = 2^(log2 20 + 1)`. -/
theorem c7_witness :
    (storageSet (List.replicate 16 0) ⟨5⟩ 20).length = 2 ^ (Nat.log2 20 + 1) :=
  (c7_storage_amended (List.replicate 16 0) ⟨5⟩ 20 (by decide) (by decide)
    (by norm_num)).1

/-- Claim C7, counterexample to the unrestricted statement: at
`index = 2^32` (a legal 64-bit `usize`), the five shift-or steps miss bit 0 —
`bitFill (2^32) = 2·(2^32 − 1)` — so the table is resized to `2^33 − 1`, one
short of `2^33`, the smallest power of two `≥ 2^32 + 1`. -/
theorem c7_counterexample :
    (storageSet (List.replicate 16 0) ⟨0⟩ (2 ^ 32)).length = 2 ^ 33 - 1 ∧
    (2 : Nat) ^ 33 - 1 ≠ 2 ^ 33 := by
  have hfill : bitFill (2 ^ 32) = 2 * (2 ^ 32 - 1) := by
    apply Nat.eq_of_testBit_eq
    intro j
    have hL : (bitFill (2 ^ 32)).testBit j = true ↔ (1 ≤ j ∧ j ≤ 32) := by
      rw [bitFill_testBit]
      constructor
      · rintro ⟨t, ht, hbt⟩
        rw [Nat.testBit_two_pow] at hbt
        have := of_decide_eq_true hbt
        omega
      · rintro ⟨hj1, hj32⟩
        refine ⟨32 - j, by omega, ?_⟩
        rw [Nat.testBit_two_pow]
        exact decide_eq_true (by omega)
    have hR : (2 * ((2 : Nat) ^ 32 - 1)).testBit j = true ↔ (1 ≤ j ∧ j ≤ 32) := by
      have hshift : 2 * ((2 : Nat) ^ 32 - 1) = (2 ^ 32 - 1) <<< 1 := by
        rw [Nat.shiftLeft_eq]
        omega
      rw [hshift, Nat.testBit_shiftLeft, Nat.testBit_two_pow_sub_one]
      constructor
      · intro h
        have h1 := (Bool.and_eq_true _ _).mp h
        have hj1 : j ≥ 1 := of_decide_eq_true h1.1
        have hj2 : j - 1 < 32 := of_decide_eq_true h1.2
        omega
      · rintro ⟨hj1, hj32⟩
        exact (Bool.and_eq_true _ _).mpr
          ⟨decide_eq_true (by omega), decide_eq_true (by omega)⟩
    cases hb : (bitFill (2 ^ 32)).testBit j with
    | true =>
      symm
      exact hR.mpr (hL.mp hb)
    | false =>
      symm
      cases hc : (2 * ((2 : Nat) ^ 32 - 1)).testBit j with
      | false => rfl
      | true =>
        rw [hL.mpr (hR.mp hc)] at hb
        exact absurd hb (by simp)
  have hp : (2 : Nat) ^ 33 = 2 * 2 ^ 32 := by norm_num [pow_succ]
  constructor
  · unfold storageSet
    rw [if_pos (by simp only [List.length_replicate]; norm_num)]
    rw [List.length_set, vecResize_length, hfill]
    omega
  · have : (1 : Nat) ≤ 2 ^ 33 := Nat.one_le_two_pow
    omega

/-! ### Claim C8 -/

theorem le_bitFill (n : Nat) : n ≤ bitFill n := by
  apply Nat.le_of_testBit
  intro i hi
  exact (bitFill_testBit n i).mpr ⟨0, by omega, by simpa using hi⟩

theorem storageGet_storageSet (d : Storage) (s : IndexSet) (i : Nat) :
    storageGet (storageSet d s i) i = some s := by
  unfold storageSet storageGet
  by_cases h : d.length ≤ i
  · rw [if_pos h]
    have hb : i < (vecResize d (bitFill i + 1) 0).length := by
      rw [vecResize_length]
      have := le_bitFill i
      omega
    rw [List.get?_set_eq_of_lt _ hb]
    simp
  · rw [if_neg h]
    rw [List.get?_set_eq_of_lt _ (by omega)]
    simp

theorem cacheResizeWith_length (c : AccCache) (n : Nat) :
    (cacheResizeWith c n).length = n := by
  simp only [cacheResizeWith, List.length_append, List.length_take,
    List.length_replicate]
  omega

theorem cacheResizeWith_self (c : AccCache) {n : Nat} (h : c.length = n) :
    cacheResizeWith c n = c := by
  subst h
  simp [cacheResizeWith, List.take_length]

theorem getD_set_self {α : Type} (l : List α) (i : Nat) (a d : α)
    (h : i < l.length) : (l.set i a).getD i d = a := by
  rw [List.getD_eq_getElem?_getD, List.getElem?_set_self h]
  rfl

/-- Claim C8 (amended: an *immediately* repeated `get_pinyin(p, offset)` —
no intervening call at a smaller offset, cache reset, query change or flag
flip — returns the same `IndexSet` without invoking `match_string`.  An
intervening call at a smaller offset truncates the per-offset vector
(`Vec::resize_with`) and forces a recomputation, though the recomputed set is
equal; see the counterexample). -/
theorem c8_get_pinyin_amended (q : Str) (pt : Bool) (c : AccCache) (p : PinyinE)
    (offset : Nat) :
    (getPinyin q pt (getPinyin q pt c p offset).2.1 p offset).1 =
      (getPinyin q pt c p offset).1 ∧
    (getPinyin q pt (getPinyin q pt c p offset).2.1 p offset).2.2 = false := by
  unfold getPinyin
  have hlen : (cacheResizeWith c (offset + 1)).length = offset + 1 :=
    cacheResizeWith_length c (offset + 1)
  cases hget : storageGet ((cacheResizeWith c (offset + 1)).getD offset []) p.id with
  | some ret =>
    simp only [hget, cacheResizeWith_self _ hlen]
    exact ⟨trivial, trivial⟩
  | none =>
    simp only [hget]
    have hlen2 :
        ((cacheResizeWith c (offset + 1)).set offset
          (storageSet ((cacheResizeWith c (offset + 1)).getD offset [])
            (pinyinMatchString p q offset pt) p.id)).length = offset + 1 := by
      rw [List.length_set]
      exact hlen
    rw [cacheResizeWith_self _ hlen2]
    rw [getD_set_self _ offset _ [] (by omega)]
    rw [storageGet_storageSet]
    simp

/-- The pinyin and query of the C8 counterexample. -/
def pC8 : PinyinE := ⟨0, false, false, [Phoneme.psingle ['a']]⟩

/-- Claim C8, counterexample to the unrestricted statement: after
`get_pinyin(p, 1)`, an intervening `get_pinyin(p, 0)` truncates the cache to
one offset row (`resize_with(0 + 1)` discards row 1), so a later
`get_pinyin(p, 1)` — same pinyin, same offset, no reset, no query change, no
flag flip — invokes `match_string` again (its value is nevertheless
unchanged). -/
theorem c8_counterexample :
    ((getPinyin ['a'] true
        ((getPinyin ['a'] true ((getPinyin ['a'] true [] pC8 1).2.1) pC8 0).2.1)
        pC8 1).2.2 = true) ∧
    (getPinyin ['a'] true
        ((getPinyin ['a'] true ((getPinyin ['a'] true [] pC8 1).2.1) pC8 0).2.1)
        pC8 1).1 = (getPinyin ['a'] true [] pC8 1).1 := by
  decide

/-! ### Claim C9 -/

/-- Claim C9: for any source `s1` with a non-whitespace character,
`PinIn::matches` and `PinIn::begins` coincide, with `accelerate` off or on
(with it on they are the same computation for every input); they can differ
only on whitespace-only `s1`, where the non-accelerated fallback tests
`s1 == s2` for `matches` and `s1.starts_with(s2)` for `begins`. -/
theorem c9_matches_begins (ctx : Ctx) (acc : Bool) (s1 s2 : Str) :
    (trimEmptyStr s1 = false →
      pininMatchesGen ctx acc s1 s2 = pininBeginsGen ctx acc s1 s2) ∧
    (pininMatchesGen ctx true s1 s2 = pininBeginsGen ctx true s1 s2) ∧
    (acc = false → trimEmptyStr s1 = true →
      pininMatchesGen ctx acc s1 s2 = (s1 == s2) ∧
      pininBeginsGen ctx acc s1 s2 = List.isPrefixOf s2 s1) := by
  refine ⟨?_, rfl, ?_⟩
  · intro h
    cases acc with
    | true => rfl
    | false =>
      unfold pininMatchesGen pininBeginsGen pininMatchesNA pininBeginsNA
      simp [h]
  · rintro rfl h
    unfold pininMatchesGen pininBeginsGen pininMatchesNA pininBeginsNA
    refine ⟨?_, ?_⟩ <;> simp [h]

/-- Claim C9, witness: on the one-letter source `a` (not whitespace) the two
operations agree in the non-accelerated mode. -/
theorem c9_witness :
    pininMatchesGen ctxEmpty false ['a'] ['b'] =
      pininBeginsGen ctxEmpty false ['a'] ['b'] :=
  (c9_matches_begins ctxEmpty false ['a'] ['b']).1 (by decide)

/-! ### Claim C10 -/

/-- Claim C10: `Compressor::end(i)` holds iff `i` is inside the arena and the
stored character there is NUL; any position at or past the arena length
reports `false`; and the NUL written by `push` right after a pushed string is
an end position. -/
theorem c10_compressor_end (chars : List Char) (s : Str) (i j : Nat) :
    (compressorEnd chars i = true ↔ i < chars.length ∧ chars.getD i ' ' = '\x00') ∧
    compressorEnd chars (chars.length + j) = false ∧
    compressorEnd (compressorPush chars s).1 ((compressorPush chars s).2 + s.length) = true := by
  refine ⟨?_, ?_, ?_⟩
  · unfold compressorEnd
    rw [beq_iff_eq]
    constructor
    · intro h
      have hlt : i < chars.length := by
        by_contra hge
        rw [List.get?_eq_none.mpr (by omega)] at h
        exact absurd h (by simp)
      refine ⟨hlt, ?_⟩
      rw [List.getD_eq_getElem?_getD, ← List.get?_eq_getElem?, h]
      rfl
    · rintro ⟨hlt, hd⟩
      rw [List.get?_eq_getElem?, List.getElem?_eq_getElem hlt]
      rw [List.getD_eq_getElem?_getD, List.getElem?_eq_getElem hlt] at hd
      exact congrArg some hd
  · unfold compressorEnd
    rw [List.get?_eq_none.mpr (by omega)]
    rfl
  · unfold compressorEnd compressorPush
    simp only [List.append_assoc]
    rw [List.get?_eq_getElem?,
      List.getElem?_append_right (by simp)]
    simp
